import Mathlib

/-!
# Verification of the adaptive Vim-navigation challenge engine

Shallow embedding of the core logic of `Backend/routes/typing.py`:
the challenge generator `generate_vim_challenge` (position validation,
trimming, random gap filling), the route-level clamp of the requested
target count, the weakness report of the `/weaknesses` endpoint
(average efficiency, trend, weakness details), and the `$inc`-based
weakness aggregation of `/result`.

Python's `random.shuffle` is modelled by an explicit `shuffle`
parameter; theorems that depend on it only assume that it permutes its
input.  Python's `round(x, 1)` is modelled as rounding `10*x` to the
nearest integer (ties rounded up, where Python uses round-half-even on
floats; no statement below depends on tie behaviour).
-/

namespace VimEngine

/-- A cursor position: 0-indexed line and column (`{'line': l, 'col': c}`). -/
structure Position where
  line : Nat
  col : Nat
deriving DecidableEq, Repr

/-- An untrusted candidate target from the external generator's JSON payload:
`line`/`col` are arbitrary integers (`target.get('line', 0)` etc.), with the
keystroke string and description passed through. -/
structure CandidateTarget where
  line : Int
  col : Int
  optimal_keys : String
  description : String
deriving DecidableEq, Repr

/-- A validated navigation target as appended to `validated_targets`. -/
structure Target where
  position : Position
  optimal_keys : String
  description : String
  completed : Bool
deriving DecidableEq, Repr

/-- The dict returned by `generate_vim_challenge` on success. -/
structure Challenge where
  code : String
  lines : List String
  targets : List Target
  ai_generated : Bool
deriving DecidableEq, Repr

/-- `result['code'].split('\n')`, char by char: splitting on every newline,
so that an empty string yields `[""]` and a trailing newline yields a final
empty line, exactly as Python's `str.split('\n')`. -/
def splitLinesAux : List Char → List (List Char)
  | [] => [[]]
  | c :: cs =>
    if c = '\n' then [] :: splitLinesAux cs
    else match splitLinesAux cs with
      | [] => [[c]]
      | l :: ls => (c :: l) :: ls

/-- `code_lines = result['code'].split('\n')`. -/
def splitLines (s : String) : List String :=
  (splitLinesAux s.toList).map List.asString

/-- The validation loop over `result['targets']`: keep a candidate iff
`0 <= line < len(code_lines)` and `0 <= col < len(code_lines[line])`,
building a target with `completed = False`.  Out-of-range candidates are
silently dropped. -/
def validateTargets (code_lines : List String) (cands : List CandidateTarget) :
    List Target :=
  cands.filterMap fun t =>
    if 0 ≤ t.line ∧ t.line < (code_lines.length : Int) then
      if 0 ≤ t.col ∧ t.col < ((code_lines.getD t.line.toNat "").length : Int) then
        some { position := ⟨t.line.toNat, t.col.toNat⟩,
               optimal_keys := t.optimal_keys,
               description := t.description,
               completed := false }
      else none
    else none

/-- Inner loop of the position catalog: `for col_idx, char in enumerate(line)`,
keeping non-whitespace characters, with `ci` the index of the first char of
`cs` within the line. -/
def lineCatalogFrom (li : Nat) : Nat → List Char → List Position
  | _, [] => []
  | ci, c :: cs =>
    if c.isWhitespace then lineCatalogFrom li (ci + 1) cs
    else ⟨li, ci⟩ :: lineCatalogFrom li (ci + 1) cs

/-- Outer loop of the position catalog: `for line_idx, line in enumerate(code_lines)`,
with `li` the index of the first line of `ls`. -/
def catalogFrom : Nat → List String → List Position
  | _, [] => []
  | li, s :: rest => lineCatalogFrom li 0 s.toList ++ catalogFrom (li + 1) rest

/-- `all_positions`: every `(line_idx, col_idx)` holding a non-whitespace
character, in row-major order (Python `char.isspace()` is modelled by
`Char.isWhitespace`; the snippets involved are plain text). -/
def positionCatalog (code_lines : List String) : List Position :=
  catalogFrom 0 code_lines

/-- `available = [p for p in all_positions if p not in existing]` where
`existing` is the set of positions already used by the validated targets. -/
def availablePositions (code_lines : List String) (validated : List Target) :
    List Position :=
  (positionCatalog code_lines).filter
    fun p => p ∉ validated.map Target.position

/-- The synthetic target appended by the gap-filling loop. -/
def syntheticTarget (p : Position) : Target :=
  { position := p, optimal_keys := "",
    description := "Navigate to this position", completed := false }

/-- The gap-filling `while` loop: as long as the target list is short of
`target_count` and `available` is nonempty, pop the last element of the
(shuffled) `available` list and append a synthetic target.  Equivalently:
append synthetic targets for the first `target_count - len(validated)`
elements of the reversed shuffled list. -/
def fillTargets (validated : List Target) (shuffled : List Position)
    (target_count : Nat) : List Target :=
  validated ++
    (shuffled.reverse.take (target_count - validated.length)).map syntheticTarget

/-- Lines 149–177 of `generate_vim_challenge`: trim to `target_count` if the
external generator over-produced, then gap-fill from the shuffled available
positions if it under-produced. -/
def assembleTargets (code_lines : List String) (validated : List Target)
    (target_count : Nat) (shuffle : List Position → List Position) : List Target :=
  let v1 := if target_count < validated.length then validated.take target_count
            else validated
  if v1.length < target_count then
    fillTargets v1 (shuffle (availablePositions code_lines v1)) target_count
  else v1

/-- `generate_vim_challenge`, from the point where the external JSON payload
has been parsed into a code string and a candidate target list: split the code
into lines, validate the candidates, fail (`return None`) when fewer than 2
valid targets remain, otherwise trim/gap-fill and return the challenge dict.
`shuffle` stands for `random.shuffle`. -/
def generate_vim_challenge (code : String) (cands : List CandidateTarget)
    (target_count : Nat) (shuffle : List Position → List Position) :
    Option Challenge :=
  let code_lines := splitLines code
  let validated := validateTargets code_lines cands
  if validated.length < 2 then none
  else some
    { code := code,
      lines := code_lines,
      targets := assembleTargets code_lines validated target_count shuffle,
      ai_generated := true }

/-- The route-level clamp in `get_vim_challenge`:
`target_count = max(3, min(10, target_count))`. -/
def clamp_target_count (n : Int) : Nat := (max 3 (min 10 n)).toNat

/-- Character of the snippet at a position (space when out of range). -/
def charAt (code_lines : List String) (p : Position) : Char :=
  (code_lines.getD p.line "").toList.getD p.col ' '

/-! ## The `/weaknesses` report (`get_weaknesses`) -/

/-- `round(x, 1)`: rounding to one decimal place (ties rounded up; Python
rounds half to even on floats, but no statement here depends on ties). -/
def round1 (q : ℚ) : ℚ := (round (10 * q) : ℤ) / 10

/-- One entry of the `weaknesses` list in the report. -/
structure WeaknessDetail where
  type : String
  count : Int
  label : String
  tip : String
  practice : String
  severity : String
deriving DecidableEq, Repr

/-- The `weakness_descriptions` dict: the fixed taxonomy, mapping a weakness
type to `(label, tip, practice)`; `none` for keys outside the taxonomy. -/
def weakness_descriptions (k : String) : Option (String × String × String) :=
  if k = "slow_basic_movement" then
    some ("Slow Basic Movement",
      "Practice h/j/k/l until they become muscle memory",
      "Try moving without looking at the keyboard")
  else if k = "missing_word_motions" then
    some ("Missing Word Motions",
      "Use 'w' to jump to next word, 'b' for previous, 'e' for end of word",
      "Words are faster than multiple l/h presses")
  else if k = "missing_find_motions" then
    some ("Missing Find Motions",
      "Use 'f\x7bchar\x7d' to jump directly to a character on the line",
      "Try 'fa' to jump to the next 'a' character")
  else if k = "missing_line_motions" then
    some ("Missing Line Motions",
      "Use '0' for line start, '$' for end, '^' for first non-blank",
      "These are essential for efficient code navigation")
  else if k = "missing_count_prefix" then
    some ("Missing Count Prefixes",
      "Use numbers before motions: '5j' moves 5 lines down",
      "Counting is faster than repeating motions")
  else if k = "missing_paragraph_motions" then
    some ("Missing Paragraph Motions",
      "Use '\x7b' and '\x7d' to jump between blank lines/code blocks",
      "Great for navigating between functions")
  else if k = "missing_bracket_matching" then
    some ("Missing Bracket Matching",
      "Use '%' to jump between matching brackets/parentheses",
      "Essential for code with nested structures")
  else if k = "inefficient_path" then
    some ("Inefficient Movement Path",
      "Plan your movement before pressing keys",
      "Look for the shortest path using available motions")
  else none

/-- Stable insertion for descending sort by count: an element goes in front of
the first strictly smaller count, after all equal ones. -/
def sortDescInsert (x : String × Int) :
    List (String × Int) → List (String × Int)
  | [] => [x]
  | y :: ys => if y.2 < x.2 then x :: y :: ys else y :: sortDescInsert x ys

/-- `sorted(weakness_counts.items(), key=lambda x: x[1], reverse=True)`:
stable descending sort by count. -/
def sortByCountDesc : List (String × Int) → List (String × Int)
  | [] => []
  | x :: xs => sortDescInsert x (sortByCountDesc xs)

/-- `'high' if count > 10 else 'medium' if count > 5 else 'low'`. -/
def severityOf (c : Int) : String :=
  if 10 < c then "high" else if 5 < c then "medium" else "low"

/-- The `weakness_details` loop: over the count-sorted entries, keep those
with positive count and a type in the fixed taxonomy. -/
def weaknessDetails (counts : List (String × Int)) : List WeaknessDetail :=
  (sortByCountDesc counts).filterMap fun (kv : String × Int) =>
    if 0 < kv.2 then
      match weakness_descriptions kv.1 with
      | some d => some { type := kv.1, count := kv.2, label := d.1,
                         tip := d.2.1, practice := d.2.2,
                         severity := severityOf kv.2 }
      | none => none
    else none

/-- `sum(efficiencies) / len(efficiencies) if efficiencies else 100`. -/
def averageEfficiency (effs : List ℚ) : ℚ :=
  if effs = [] then 100 else effs.sum / effs.length

/-- The improvement-trend computation: when at least 5 recent results exist,
compare the mean efficiency of results `[0:5]` with that of results `[5:10]`
(skipping results without an `efficiency` field, modelled as `none`), and
report 0 when either window is empty or fewer than 5 results exist. -/
def trendValue (recent : List (Option ℚ)) : ℚ :=
  if 5 ≤ recent.length then
    let recent5 := (recent.take 5).filterMap id
    let older5 := ((recent.drop 5).take 5).filterMap id
    if recent5 ≠ [] ∧ older5 ≠ [] then
      recent5.sum / recent5.length - older5.sum / older5.length
    else 0
  else 0

/-- The JSON body returned by `get_weaknesses`. -/
structure WeaknessReport where
  avg_efficiency : ℚ
  total_vim_tests : Nat
  trend : ℚ
  weaknesses : List WeaknessDetail
  recommendations : List String
  weakness_counts : List (String × Int)
deriving DecidableEq, Repr

/-- `get_weaknesses`, given the user's cumulative `weakness_counts` and the
efficiency fields of the (at most 20) most recent Vim-mode results, newest
first (`none` = result without an `efficiency` field). -/
def get_weaknesses_report (weakness_counts : List (String × Int))
    (recent_results : List (Option ℚ)) : WeaknessReport :=
  let efficiencies := recent_results.filterMap id
  let details := weaknessDetails weakness_counts
  { avg_efficiency := round1 (averageEfficiency efficiencies),
    total_vim_tests := recent_results.length,
    trend := round1 (trendValue recent_results),
    weaknesses := details,
    recommendations := (details.take 3).map WeaknessDetail.tip,
    weakness_counts := weakness_counts }

/-! ## Weakness aggregation (`save_result`) -/

/-- The aggregation step of `save_result`: the Mongo update
`$inc: {'weakness_counts.k': v for k, v in weaknesses.items()}` applied to a
cumulative profile (a total map, absent counters read as 0): each submitted
pair adds its count to that key's counter, all other counters untouched. -/
def applyWeaknessInc (profile : String → Int)
    (submitted : List (String × Int)) : String → Int :=
  submitted.foldl (fun acc kv s => if s = kv.1 then acc s + kv.2 else acc s)
    profile

/-! ## Adaptive weight calculator (spec §4.8) -/

/-- The 9 motion categories of the WeightVector. -/
def motion_categories : List String :=
  ["basic", "word", "line", "find", "search", "paragraph", "document",
   "bracket", "count"]

/-- The fixed weakness taxonomy (the keys of `weakness_descriptions`). -/
def weakness_taxonomy : List String :=
  ["slow_basic_movement", "missing_word_motions", "missing_find_motions",
   "missing_line_motions", "missing_count_prefix",
   "missing_paragraph_motions", "missing_bracket_matching",
   "inefficient_path"]

/-- Modelled from the spec: the Adaptive Weight Calculator of §4.8 and its
weakness→motion mapping table are not implemented anywhere in the
repository's source (the `/weaknesses` route returns raw counters only), so
the mapping is taken from the spec's glossary: each motion-named weakness
category maps to the motion category in its name; `inefficient_path` names
no motion category and maps to none. -/
def weakness_to_motion (w : String) : Option String :=
  if w = "slow_basic_movement" then some "basic"
  else if w = "missing_word_motions" then some "word"
  else if w = "missing_find_motions" then some "find"
  else if w = "missing_line_motions" then some "line"
  else if w = "missing_count_prefix" then some "count"
  else if w = "missing_paragraph_motions" then some "paragraph"
  else if w = "missing_bracket_matching" then some "bracket"
  else none

/-- Modelled from the spec: the per-weakness weight bonus of §4.8 —
`+3.0` if cumulative count `> 10`, else `+2.0` if `> 5`, else `+1.0`
if `> 2`, else `+0`. -/
def weight_bonus (c : Int) : ℚ :=
  if 10 < c then 3 else if 5 < c then 2 else if 2 < c then 1 else 0

/-- Modelled from the spec: the weight of one motion category — `1.0` plus
the bonuses of every weakness category of the taxonomy mapping to it. -/
def adaptive_weight (profile : String → Int) (m : String) : ℚ :=
  1 + ((weakness_taxonomy.filter fun w => weakness_to_motion w = some m).map
        fun w => weight_bonus (profile w)).sum

/-! ## Basic facts about the position catalog -/

theorem mem_lineCatalogFrom {li : Nat} {p : Position} :
    ∀ (cs : List Char) (ci : Nat), p ∈ lineCatalogFrom li ci cs →
      p.line = li ∧ ci ≤ p.col ∧ p.col - ci < cs.length ∧
        ¬(cs.getD (p.col - ci) ' ').isWhitespace := by
  intro cs
  induction cs with
  | nil => intro ci h; simp [lineCatalogFrom] at h
  | cons c cs ih =>
    intro ci h
    rw [lineCatalogFrom] at h
    by_cases hw : c.isWhitespace
    · rw [if_pos hw] at h
      obtain ⟨hline, hle, hlt, hch⟩ := ih (ci + 1) h
      refine ⟨hline, by omega, by simp only [List.length_cons]; omega, ?_⟩
      have hcol : p.col - ci = (p.col - (ci + 1)) + 1 := by omega
      rw [hcol]
      simpa using hch
    · rw [if_neg hw] at h
      rcases List.mem_cons.mp h with h | h
      · subst h
        exact ⟨rfl, le_refl _, by simp, by simpa using hw⟩
      · obtain ⟨hline, hle, hlt, hch⟩ := ih (ci + 1) h
        refine ⟨hline, by omega, by simp only [List.length_cons]; omega, ?_⟩
        have hcol : p.col - ci = (p.col - (ci + 1)) + 1 := by omega
        rw [hcol]
        simpa using hch

theorem nodup_lineCatalogFrom {li : Nat} :
    ∀ (cs : List Char) (ci : Nat), (lineCatalogFrom li ci cs).Nodup := by
  intro cs
  induction cs with
  | nil => intro ci; simp [lineCatalogFrom]
  | cons c cs ih =>
    intro ci
    rw [lineCatalogFrom]
    by_cases hw : c.isWhitespace
    · rw [if_pos hw]; exact ih (ci + 1)
    · rw [if_neg hw]
      refine List.nodup_cons.mpr ⟨fun hmem => ?_, ih (ci + 1)⟩
      have := (mem_lineCatalogFrom cs (ci + 1) hmem).2.1
      simp at this

theorem mem_catalogFrom {p : Position} :
    ∀ (ls : List String) (li : Nat), p ∈ catalogFrom li ls →
      li ≤ p.line ∧ p.line - li < ls.length ∧
        p.col < (ls.getD (p.line - li) "").length ∧
        ¬((ls.getD (p.line - li) "").toList.getD p.col ' ').isWhitespace := by
  intro ls
  induction ls with
  | nil => intro li h; simp [catalogFrom] at h
  | cons s rest ih =>
    intro li h
    rw [catalogFrom] at h
    rcases List.mem_append.mp h with h | h
    · obtain ⟨hline, -, hlt, hch⟩ := mem_lineCatalogFrom s.toList 0 h
      have hsub : p.line - li = 0 := by omega
      have hlen : s.toList.length = s.length := rfl
      refine ⟨le_of_eq hline.symm, by simp [hsub], ?_, ?_⟩
      · rw [hsub]; simpa [hlen] using hlt
      · rw [hsub]; simpa using hch
    · obtain ⟨hge, hlt, hcol, hch⟩ := ih (li + 1) h
      have hsub : p.line - li = (p.line - (li + 1)) + 1 := by omega
      refine ⟨by omega, by simp only [List.length_cons]; omega, ?_, ?_⟩
      · rw [hsub]; simpa using hcol
      · rw [hsub]; simpa using hch

theorem nodup_catalogFrom :
    ∀ (ls : List String) (li : Nat), (catalogFrom li ls).Nodup := by
  intro ls
  induction ls with
  | nil => intro li; simp [catalogFrom]
  | cons s rest ih =>
    intro li
    rw [catalogFrom]
    refine List.nodup_append.mpr ⟨nodup_lineCatalogFrom s.toList 0, ih (li + 1), ?_⟩
    intro p hp hp'
    have h1 := (mem_lineCatalogFrom s.toList 0 hp).1
    have h2 := (mem_catalogFrom rest (li + 1) hp').1
    omega

/-- Every catalog position addresses a non-whitespace character of the
snippet, within range. -/
theorem mem_positionCatalog {code_lines : List String} {p : Position}
    (h : p ∈ positionCatalog code_lines) :
    p.line < code_lines.length ∧
      p.col < (code_lines.getD p.line "").length ∧
      ¬(charAt code_lines p).isWhitespace := by
  obtain ⟨-, hlt, hcol, hch⟩ := mem_catalogFrom code_lines 0 h
  simp only [Nat.sub_zero] at hlt hcol hch
  exact ⟨hlt, hcol, hch⟩

/-- The position catalog lists each position at most once. -/
theorem nodup_positionCatalog (code_lines : List String) :
    (positionCatalog code_lines).Nodup :=
  nodup_catalogFrom code_lines 0

/-- Counting: a list with no duplicates is no longer than any list `m`
together with the elements of `l` outside `m`. -/
theorem length_le_length_add_filter {α : Type} [DecidableEq α]
    (l m : List α) (hl : l.Nodup) :
    l.length ≤ m.length + (l.filter fun a => a ∉ m).length := by
  classical
  have hsub : l.toFinset ⊆ m.toFinset ∪ (l.filter fun a => a ∉ m).toFinset := by
    intro x hx
    rw [List.mem_toFinset] at hx
    by_cases hxm : x ∈ m
    · exact Finset.mem_union_left _ (List.mem_toFinset.mpr hxm)
    · refine Finset.mem_union_right _ (List.mem_toFinset.mpr ?_)
      rw [List.mem_filter]
      exact ⟨hx, by simpa using hxm⟩
  calc l.length = l.toFinset.card := (List.toFinset_card_of_nodup hl).symm
    _ ≤ (m.toFinset ∪ (l.filter fun a => a ∉ m).toFinset).card :=
        Finset.card_le_card hsub
    _ ≤ m.toFinset.card + (l.filter fun a => a ∉ m).toFinset.card :=
        Finset.card_union_le _ _
    _ ≤ m.length + (l.filter fun a => a ∉ m).length :=
        Nat.add_le_add (List.toFinset_card_le m) (List.toFinset_card_le _)

/-! ## Facts about trimming and gap filling -/

theorem mem_availablePositions {code_lines : List String} {v : List Target}
    {p : Position} (h : p ∈ availablePositions code_lines v) :
    p ∈ positionCatalog code_lines ∧ p ∉ v.map Target.position := by
  have := List.mem_filter.mp h
  refine ⟨this.1, ?_⟩
  simpa using this.2

theorem nodup_availablePositions (code_lines : List String) (v : List Target) :
    (availablePositions code_lines v).Nodup :=
  (nodup_positionCatalog code_lines).filter _

/-- The final target list never exceeds the requested count. -/
theorem length_assembleTargets_le (code_lines : List String)
    (validated : List Target) (tc : Nat)
    (shuffle : List Position → List Position) :
    (assembleTargets code_lines validated tc shuffle).length ≤ tc := by
  rw [assembleTargets]
  by_cases h1 : tc < validated.length
  · rw [if_pos h1]
    have hlen : (validated.take tc).length = tc := by
      rw [List.length_take]; omega
    rw [if_neg (by omega), hlen]
  · rw [if_neg h1]
    by_cases h2 : validated.length < tc
    · rw [if_pos h2, fillTargets, List.length_append, List.length_map,
        List.length_take]
      omega
    · rw [if_neg h2]; omega

/-- The final target list is at least as long as the validated list capped at
the requested count. -/
theorem min_le_length_assembleTargets (code_lines : List String)
    (validated : List Target) (tc : Nat)
    (shuffle : List Position → List Position) :
    min validated.length tc ≤
      (assembleTargets code_lines validated tc shuffle).length := by
  rw [assembleTargets]
  by_cases h1 : tc < validated.length
  · rw [if_pos h1]
    have hlen : (validated.take tc).length = tc := by
      rw [List.length_take]; omega
    rw [if_neg (by omega), hlen]
    omega
  · rw [if_neg h1]
    by_cases h2 : validated.length < tc
    · rw [if_pos h2, fillTargets, List.length_append]
      omega
    · rw [if_neg h2]; omega

/-- When the catalog holds at least `tc` positions, trimming and gap filling
always reach exactly `tc` targets. -/
theorem length_assembleTargets_eq (code_lines : List String)
    (validated : List Target) (tc : Nat)
    (shuffle : List Position → List Position)
    (hs : ∀ l, (shuffle l).Perm l)
    (hcat : tc ≤ (positionCatalog code_lines).length) :
    (assembleTargets code_lines validated tc shuffle).length = tc := by
  rw [assembleTargets]
  by_cases h1 : tc < validated.length
  · rw [if_pos h1]
    have hlen : (validated.take tc).length = tc := by
      rw [List.length_take]; omega
    rw [if_neg (by omega), hlen]
  · rw [if_neg h1]
    by_cases h2 : validated.length < tc
    · rw [if_pos h2, fillTargets, List.length_append, List.length_map,
        List.length_take, List.length_reverse]
      have hperm := (hs (availablePositions code_lines validated)).length_eq
      rw [hperm]
      have hcount := length_le_length_add_filter
        (positionCatalog code_lines) (validated.map Target.position)
        (nodup_positionCatalog code_lines)
      have havail : (availablePositions code_lines validated).length =
          ((positionCatalog code_lines).filter
            fun a => a ∉ validated.map Target.position).length := rfl
      rw [havail]
      rw [List.length_map] at hcount
      omega
    · rw [if_neg h2]; omega

/-- Every assembled target is either one of the validated targets or a
synthetic target placed on a catalog (hence non-whitespace) position. -/
theorem mem_assembleTargets {code_lines : List String}
    {validated : List Target} {tc : Nat}
    {shuffle : List Position → List Position}
    (hs : ∀ l, (shuffle l).Perm l) {t : Target}
    (ht : t ∈ assembleTargets code_lines validated tc shuffle) :
    t ∈ validated ∨
      (t = syntheticTarget t.position ∧ t.position ∈ positionCatalog code_lines) := by
  rw [assembleTargets] at ht
  by_cases h1 : tc < validated.length
  · rw [if_pos h1, if_neg (by rw [List.length_take]; omega)] at ht
    exact Or.inl (List.mem_of_mem_take ht)
  · rw [if_neg h1] at ht
    by_cases h2 : validated.length < tc
    · rw [if_pos h2, fillTargets] at ht
      rcases List.mem_append.mp ht with h | h
      · exact Or.inl h
      · obtain ⟨p, hp, hpt⟩ := List.mem_map.mp h
        have hp' : p ∈ availablePositions code_lines validated :=
          (hs _).mem_iff.mp (List.mem_reverse.mp (List.mem_of_mem_take hp))
        have hcat := (mem_availablePositions hp').1
        subst hpt
        exact Or.inr ⟨rfl, hcat⟩
    · rw [if_neg h2] at ht
      exact Or.inl ht

/-- Gap filling never introduces a duplicate position: if the validated
targets have pairwise distinct positions, so does the final list. -/
theorem nodup_assembleTargets {code_lines : List String}
    {validated : List Target} {tc : Nat}
    {shuffle : List Position → List Position}
    (hs : ∀ l, (shuffle l).Perm l)
    (hnd : (validated.map Target.position).Nodup) :
    ((assembleTargets code_lines validated tc shuffle).map
      Target.position).Nodup := by
  rw [assembleTargets]
  by_cases h1 : tc < validated.length
  · rw [if_pos h1, if_neg (by rw [List.length_take]; omega)]
    rw [List.map_take]
    exact hnd.sublist (List.take_sublist _ _)
  · rw [if_neg h1]
    by_cases h2 : validated.length < tc
    · rw [if_pos h2, fillTargets, List.map_append, List.map_map]
      rw [show Target.position ∘ syntheticTarget = id from rfl, List.map_id]
      refine List.nodup_append.mpr ⟨hnd, ?_, ?_⟩
      · refine List.Nodup.sublist (List.take_sublist _ _) ?_
        refine List.nodup_reverse.mpr ?_
        exact (hs _).nodup_iff.mpr (nodup_availablePositions _ _)
      · intro p hp hp'
        have hp'' : p ∈ availablePositions code_lines validated :=
          (hs _).mem_iff.mp (List.mem_reverse.mp (List.mem_of_mem_take hp'))
        exact (mem_availablePositions hp'').2 hp
    · rw [if_neg h2]
      exact hnd

/-! ## Unfolding `generate_vim_challenge` -/

/-- Generation fails exactly when fewer than 2 candidates survive
validation. -/
theorem generate_eq_none_iff (code : String) (cands : List CandidateTarget)
    (tc : Nat) (shuffle : List Position → List Position) :
    generate_vim_challenge code cands tc shuffle = none ↔
      (validateTargets (splitLines code) cands).length < 2 := by
  rw [generate_vim_challenge]
  by_cases h : (validateTargets (splitLines code) cands).length < 2
  · simp [h]
  · simp [h]

/-- What a successful generation returns. -/
theorem generate_eq_some {code : String} {cands : List CandidateTarget}
    {tc : Nat} {shuffle : List Position → List Position} {ch : Challenge}
    (h : generate_vim_challenge code cands tc shuffle = some ch) :
    2 ≤ (validateTargets (splitLines code) cands).length ∧
      ch.lines = splitLines code ∧
      ch.targets = assembleTargets (splitLines code)
        (validateTargets (splitLines code) cands) tc shuffle := by
  rw [generate_vim_challenge] at h
  by_cases hv : (validateTargets (splitLines code) cands).length < 2
  · rw [if_pos hv] at h; exact absurd h (by simp)
  · rw [if_neg hv] at h
    have := Option.some.inj h
    subst this
    exact ⟨by omega, rfl, rfl⟩

/-! ## Facts about the validator -/

/-- Every validated target stems from an in-range candidate, copying its
fields. -/
theorem mem_validateTargets {code_lines : List String}
    {cands : List CandidateTarget} {t : Target}
    (h : t ∈ validateTargets code_lines cands) :
    ∃ c ∈ cands, (0 ≤ c.line ∧ c.line < (code_lines.length : Int)) ∧
      (0 ≤ c.col ∧ c.col < ((code_lines.getD c.line.toNat "").length : Int)) ∧
      t = { position := ⟨c.line.toNat, c.col.toNat⟩,
            optimal_keys := c.optimal_keys,
            description := c.description,
            completed := false } := by
  obtain ⟨c, hc, hfc⟩ := List.mem_filterMap.mp h
  refine ⟨c, hc, ?_⟩
  by_cases h1 : 0 ≤ c.line ∧ c.line < (code_lines.length : Int)
  · rw [if_pos h1] at hfc
    by_cases h2 : 0 ≤ c.col ∧ c.col < ((code_lines.getD c.line.toNat "").length : Int)
    · rw [if_pos h2] at hfc
      exact ⟨h1, h2, (Option.some.inj hfc).symm⟩
    · rw [if_neg h2] at hfc; exact absurd hfc (by simp)
  · rw [if_neg h1] at hfc; exact absurd hfc (by simp)

/-- If no two candidates share `(line, col)`, the validated targets have
pairwise distinct positions. -/
theorem nodup_validateTargets_positions {code_lines : List String} :
    ∀ (cands : List CandidateTarget),
      (cands.map fun c => (c.line, c.col)).Nodup →
      ((validateTargets code_lines cands).map Target.position).Nodup := by
  intro cands
  induction cands with
  | nil => intro _; simp [validateTargets]
  | cons c cs ih =>
    intro hnd
    rw [List.map_cons, List.nodup_cons] at hnd
    rw [validateTargets, List.filterMap_cons]
    by_cases h1 : 0 ≤ c.line ∧ c.line < (code_lines.length : Int)
    · rw [if_pos h1]
      by_cases h2 : 0 ≤ c.col ∧ c.col < ((code_lines.getD c.line.toNat "").length : Int)
      · rw [if_pos h2, List.map_cons, List.nodup_cons]
        refine ⟨fun hmem => ?_, ih hnd.2⟩
        obtain ⟨t, ht, htp⟩ := List.mem_map.mp hmem
        obtain ⟨c', hc', h1', h2', ht'⟩ := mem_validateTargets ht
        apply hnd.1
        rw [List.mem_map]
        refine ⟨c', hc', ?_⟩
        rw [ht'] at htp
        simp only at htp
        have hline : c'.line = c.line := by
          have := congrArg Position.line htp
          simp only at this
          omega
        have hcol : c'.col = c.col := by
          have := congrArg Position.col htp
          simp only at this
          omega
        rw [hline, hcol]
      · rw [if_neg h2]; exact ih hnd.2
    · rw [if_neg h1]; exact ih hnd.2

/-! ## C1 -/

/-- C1: for every snippet and every `requestedCount` in `[3, 10]`, if the
Position Catalog holds at least `requestedCount` positions, then whenever
`generate_vim_challenge` returns a challenge rather than failing, the
challenge has exactly `requestedCount` targets. -/
theorem generate_exact_target_count (code : String)
    (cands : List CandidateTarget) (tc : Nat)
    (shuffle : List Position → List Position)
    (hs : ∀ l, (shuffle l).Perm l) (h3 : 3 ≤ tc) (h10 : tc ≤ 10)
    (hcat : tc ≤ (positionCatalog (splitLines code)).length)
    (ch : Challenge)
    (hgen : generate_vim_challenge code cands tc shuffle = some ch) :
    ch.targets.length = tc := by
  obtain ⟨-, -, htargets⟩ := generate_eq_some hgen
  rw [htargets]
  exact length_assembleTargets_eq _ _ _ _ hs hcat

/-- Concrete run of C1: snippet `"abcd"` (catalog size 4), two valid
candidates, `requestedCount = 3`, identity shuffle. -/
def chalC1 : Challenge :=
  (generate_vim_challenge "abcd" [⟨0, 0, "k1", "d1"⟩, ⟨0, 1, "k2", "d2"⟩] 3
    (fun l => l)).getD ⟨"", [], [], false⟩

theorem generate_exact_target_count_witness : chalC1.targets.length = 3 :=
  generate_exact_target_count "abcd" [⟨0, 0, "k1", "d1"⟩, ⟨0, 1, "k2", "d2"⟩]
    3 (fun l => l) (fun l => List.Perm.refl l) (by decide) (by decide)
    (by decide) chalC1 (by decide)

/-! ## C10 -/

/-- C10: with the route's clamp of the requested count into `[3, 10]`, every
successfully generated challenge has between 2 and `requestedCount` targets
inclusive. -/
theorem generate_target_count_bounds (code : String)
    (cands : List CandidateTarget) (n : Int)
    (shuffle : List Position → List Position) (ch : Challenge)
    (hgen : generate_vim_challenge code cands (clamp_target_count n) shuffle
      = some ch) :
    2 ≤ ch.targets.length ∧ ch.targets.length ≤ clamp_target_count n := by
  obtain ⟨hv, -, htargets⟩ := generate_eq_some hgen
  rw [htargets]
  constructor
  · have hmin := min_le_length_assembleTargets (splitLines code)
      (validateTargets (splitLines code) cands) (clamp_target_count n) shuffle
    have h3 : 3 ≤ clamp_target_count n := by
      have hmax : (3 : Int) ≤ max 3 (min 10 n) := le_max_left _ _
      unfold clamp_target_count
      omega
    omega
  · exact length_assembleTargets_le _ _ _ _

/-- Concrete run of C10: requested count 5 (clamped to 5), but only 4
non-whitespace positions exist, so the challenge comes back with 4 targets —
within the `[2, requestedCount]` bounds. -/
def chalC10 : Challenge :=
  (generate_vim_challenge "abcd" [⟨0, 0, "k1", "d1"⟩, ⟨0, 1, "k2", "d2"⟩]
    (clamp_target_count 5) (fun l => l)).getD ⟨"", [], [], false⟩

theorem generate_target_count_bounds_witness :
    2 ≤ chalC10.targets.length ∧
      chalC10.targets.length ≤ clamp_target_count 5 :=
  generate_target_count_bounds "abcd"
    [⟨0, 0, "k1", "d1"⟩, ⟨0, 1, "k2", "d2"⟩] 5 (fun l => l) chalC10 (by decide)

/-! ## C2 -/

/-- Concrete run refuting C2: snippet `"ab"` has a catalog of exactly 2
positions, both used by valid candidates; with `requestedCount = 3` the
available set is exhausted immediately, yet the engine returns a challenge
with only 2 targets instead of failing. -/
def chalC2 : Challenge :=
  (generate_vim_challenge "ab" [⟨0, 0, "k1", "d1"⟩, ⟨0, 1, "k2", "d2"⟩] 3
    (fun l => l)).getD ⟨"", [], [], false⟩

theorem generate_exhausted_returns_short :
    generate_vim_challenge "ab" [⟨0, 0, "k1", "d1"⟩, ⟨0, 1, "k2", "d2"⟩] 3
        (fun l => l) = some chalC2 ∧
      chalC2.targets.length = 2 := by
  constructor
  · decide
  · decide

/-- C2 (amended): exhausting the available positions does not make the
engine fail; `generate_vim_challenge` fails exactly when fewer than 2
candidates survive validation, and otherwise returns a challenge even if it
has fewer than `requestedCount` targets. -/
theorem generate_none_iff_under_two_valid (code : String)
    (cands : List CandidateTarget) (tc : Nat)
    (shuffle : List Position → List Position) :
    generate_vim_challenge code cands tc shuffle = none ↔
      (validateTargets (splitLines code) cands).length < 2 :=
  generate_eq_none_iff code cands tc shuffle

/-! ## C7 -/

/-- Concrete run refuting C7: with zero valid candidates and a 4-position
catalog that could easily supply 3 synthetic targets, generation fails
outright — the gap filler is never reached when fewer than 2 targets survive
validation. -/
theorem generate_no_fill_below_two_valid :
    generate_vim_challenge "abcd" [] 3 (fun l => l) = none ∧
      3 ≤ (positionCatalog (splitLines "abcd")).length := by
  constructor
  · decide
  · decide

/-- C7 (amended): gap filling happens only when at least 2 targets survive
validation and fewer than `requestedCount`; in that case the challenge is the
validated targets followed by synthetic targets (empty `optimal_keys`,
description `"Navigate to this position"`) drawn without replacement from the
available positions, until the count is reached or the positions run out. -/
theorem generate_gap_fill_behaviour (code : String)
    (cands : List CandidateTarget) (tc : Nat)
    (shuffle : List Position → List Position)
    (hs : ∀ l, (shuffle l).Perm l)
    (h2 : 2 ≤ (validateTargets (splitLines code) cands).length)
    (hlt : (validateTargets (splitLines code) cands).length < tc) :
    ∃ ch, generate_vim_challenge code cands tc shuffle = some ch ∧
      ∃ extra, ch.targets = validateTargets (splitLines code) cands ++ extra ∧
        extra.length = min (tc - (validateTargets (splitLines code) cands).length)
          (availablePositions (splitLines code)
            (validateTargets (splitLines code) cands)).length ∧
        (∀ t ∈ extra, t.optimal_keys = "" ∧
          t.description = "Navigate to this position" ∧
          t.position ∈ availablePositions (splitLines code)
            (validateTargets (splitLines code) cands)) ∧
        (extra.map Target.position).Nodup := by
  set cls := splitLines code with hcls
  set v := validateTargets cls cands with hv
  have hasm : assembleTargets cls v tc shuffle =
      fillTargets v (shuffle (availablePositions cls v)) tc := by
    simp only [assembleTargets]
    rw [if_neg (show ¬ tc < v.length by omega), if_pos hlt]
  refine ⟨{ code := code, lines := cls,
            targets := assembleTargets cls v tc shuffle,
            ai_generated := true }, ?_, ?_⟩
  · rw [generate_vim_challenge]
    have h2' : ¬ ((validateTargets (splitLines code) cands).length < 2) := by
      rw [← hcls, ← hv]; omega
    rw [if_neg h2']
  · refine ⟨((shuffle (availablePositions cls v)).reverse.take
      (tc - v.length)).map syntheticTarget, ?_, ?_, ?_, ?_⟩
    · simp only [hasm, fillTargets]
    · rw [List.length_map, List.length_take, List.length_reverse,
        (hs _).length_eq]
    · intro t ht
      obtain ⟨p, hp, hpt⟩ := List.mem_map.mp ht
      have hp' : p ∈ availablePositions cls v :=
        (hs _).mem_iff.mp (List.mem_reverse.mp (List.mem_of_mem_take hp))
      subst hpt
      exact ⟨rfl, rfl, hp'⟩
    · rw [List.map_map, show Target.position ∘ syntheticTarget = id from rfl,
        List.map_id]
      refine List.Nodup.sublist (List.take_sublist _ _) ?_
      refine List.nodup_reverse.mpr ?_
      exact (hs _).nodup_iff.mpr (nodup_availablePositions _ _)

theorem generate_gap_fill_behaviour_witness :
    ∃ ch, generate_vim_challenge "abcd"
        [⟨0, 0, "k1", "d1"⟩, ⟨0, 1, "k2", "d2"⟩] 3 (fun l => l) = some ch ∧
      ∃ extra, ch.targets = validateTargets (splitLines "abcd")
          [⟨0, 0, "k1", "d1"⟩, ⟨0, 1, "k2", "d2"⟩] ++ extra ∧
        extra.length = min
          (3 - (validateTargets (splitLines "abcd")
            [⟨0, 0, "k1", "d1"⟩, ⟨0, 1, "k2", "d2"⟩]).length)
          (availablePositions (splitLines "abcd")
            (validateTargets (splitLines "abcd")
              [⟨0, 0, "k1", "d1"⟩, ⟨0, 1, "k2", "d2"⟩])).length ∧
        (∀ t ∈ extra, t.optimal_keys = "" ∧
          t.description = "Navigate to this position" ∧
          t.position ∈ availablePositions (splitLines "abcd")
            (validateTargets (splitLines "abcd")
              [⟨0, 0, "k1", "d1"⟩, ⟨0, 1, "k2", "d2"⟩])) ∧
        (extra.map Target.position).Nodup :=
  generate_gap_fill_behaviour "abcd"
    [⟨0, 0, "k1", "d1"⟩, ⟨0, 1, "k2", "d2"⟩] 3 (fun l => l)
    (fun l => List.Perm.refl l) (by decide) (by decide)

/-! ## C3 -/

/-- Concrete run refuting C3: on the snippet `"ab c"` the external candidate
`(0, 2)` sits on the space character; validation only range-checks it, so the
returned challenge contains a whitespace target. -/
def chalC3 : Challenge :=
  (generate_vim_challenge "ab c" [⟨0, 0, "k1", "d1"⟩, ⟨0, 2, "k2", "d2"⟩] 3
    (fun l => l)).getD ⟨"", [], [], false⟩

theorem generate_whitespace_candidate_kept :
    generate_vim_challenge "ab c" [⟨0, 0, "k1", "d1"⟩, ⟨0, 2, "k2", "d2"⟩] 3
        (fun l => l) = some chalC3 ∧
      ∃ t ∈ chalC3.targets, (charAt chalC3.lines t.position).isWhitespace := by
  constructor
  · decide
  · decide

/-- C3 (amended): every returned target is in range, and every target that
does not stem from an externally supplied candidate (a gap-filled one) sits
on a non-whitespace character; candidate-derived targets are only
range-checked and may sit on whitespace. -/
theorem targets_in_range_and_fill_nonwhitespace (code : String)
    (cands : List CandidateTarget) (tc : Nat)
    (shuffle : List Position → List Position)
    (hs : ∀ l, (shuffle l).Perm l) (ch : Challenge)
    (hgen : generate_vim_challenge code cands tc shuffle = some ch) :
    ∀ t ∈ ch.targets,
      t.position.line < ch.lines.length ∧
      t.position.col < (ch.lines.getD t.position.line "").length ∧
      ((∃ c ∈ cands, c.line = (t.position.line : Int) ∧
          c.col = (t.position.col : Int)) ∨
        ¬(charAt ch.lines t.position).isWhitespace) := by
  obtain ⟨-, hlines, htargets⟩ := generate_eq_some hgen
  intro t ht
  rw [htargets] at ht
  rw [hlines]
  rcases mem_assembleTargets hs ht with h | h
  · obtain ⟨c, hc, h1, h2, hteq⟩ := mem_validateTargets h
    have hline : t.position.line = c.line.toNat := by rw [hteq]
    have hcol : t.position.col = c.col.toNat := by rw [hteq]
    refine ⟨by omega, ?_, Or.inl ⟨c, hc, ?_, ?_⟩⟩
    · rw [hline, hcol]; omega
    · rw [hline]; omega
    · rw [hcol]; omega
  · obtain ⟨-, hp⟩ := h
    obtain ⟨hl, hc, hw⟩ := mem_positionCatalog hp
    exact ⟨hl, hc, Or.inr hw⟩

/-- The first target of `chalC3`, used to instantiate the amended C3
statement at a concrete input. -/
def targetC3 : Target := ⟨⟨0, 0⟩, "k1", "d1", false⟩

theorem targets_in_range_and_fill_nonwhitespace_witness :
    targetC3.position.line < chalC3.lines.length ∧
      targetC3.position.col <
        (chalC3.lines.getD targetC3.position.line "").length ∧
      ((∃ c ∈ [(⟨0, 0, "k1", "d1"⟩ : CandidateTarget), ⟨0, 2, "k2", "d2"⟩],
          c.line = (targetC3.position.line : Int) ∧
          c.col = (targetC3.position.col : Int)) ∨
        ¬(charAt chalC3.lines targetC3.position).isWhitespace) :=
  targets_in_range_and_fill_nonwhitespace "ab c"
    [⟨0, 0, "k1", "d1"⟩, ⟨0, 2, "k2", "d2"⟩] 3 (fun l => l)
    (fun l => List.Perm.refl l) chalC3 (by decide) targetC3 (by decide)

/-! ## C4 -/

/-- Concrete run refuting C4: two external candidates with the same
`(line, col)` both survive validation — the engine never deduplicates them,
so the returned challenge carries two targets at position `(0, 0)`. -/
def chalC4 : Challenge :=
  (generate_vim_challenge "abcd" [⟨0, 0, "k1", "d1"⟩, ⟨0, 0, "k2", "d2"⟩] 3
    (fun l => l)).getD ⟨"", [], [], false⟩

theorem generate_duplicate_candidate_positions :
    generate_vim_challenge "abcd" [⟨0, 0, "k1", "d1"⟩, ⟨0, 0, "k2", "d2"⟩] 3
        (fun l => l) = some chalC4 ∧
      ¬ ((chalC4.targets.map Target.position).Nodup) := by
  constructor
  · decide
  · decide

/-- C4 (amended): provided no two external candidates share the same
`(line, col)`, no returned challenge contains two targets with the same
position (duplicates can only enter through the candidate list; trimming and
gap filling never create one). -/
theorem no_duplicate_positions_of_distinct_candidates (code : String)
    (cands : List CandidateTarget) (tc : Nat)
    (shuffle : List Position → List Position)
    (hs : ∀ l, (shuffle l).Perm l)
    (hnd : (cands.map fun c => (c.line, c.col)).Nodup) (ch : Challenge)
    (hgen : generate_vim_challenge code cands tc shuffle = some ch) :
    (ch.targets.map Target.position).Nodup := by
  obtain ⟨-, -, htargets⟩ := generate_eq_some hgen
  rw [htargets]
  exact nodup_assembleTargets hs (nodup_validateTargets_positions cands hnd)

theorem no_duplicate_positions_of_distinct_candidates_witness :
    (chalC1.targets.map Target.position).Nodup :=
  no_duplicate_positions_of_distinct_candidates "abcd"
    [⟨0, 0, "k1", "d1"⟩, ⟨0, 1, "k2", "d2"⟩] 3 (fun l => l)
    (fun l => List.Perm.refl l) (by decide) chalC1 (by decide)

/-! ## C5 -/

/-- Concrete run refuting C5: with zero stored Vim-mode results the code's
`sum(...) / len(...) if efficiencies else 100` default makes the reported
average efficiency 100, not 0. -/
theorem report_no_tests_avg_not_zero :
    (get_weaknesses_report [] []).avg_efficiency = 100 ∧ ((100 : ℚ) ≠ 0) := by
  constructor
  · norm_num [get_weaknesses_report, averageEfficiency, round1, List.filterMap]
  · norm_num

/-- C5 (amended): for a user with zero stored Vim-mode results and empty
cumulative weakness counters, the report has `avg_efficiency = 100` (the
code's empty-history default), `trend = 0` and empty weakness details. -/
theorem report_no_tests_empty_values :
    get_weaknesses_report [] [] =
      { avg_efficiency := 100, total_vim_tests := 0, trend := 0,
        weaknesses := [], recommendations := [], weakness_counts := [] } := by
  norm_num [get_weaknesses_report, averageEfficiency, trendValue, round1,
    weaknessDetails, sortByCountDesc, List.filterMap]

/-! ## C6 -/

/-- Concrete run refuting C6: with only 6 efficiency records (fewer than 10)
the reported trend is not 0 — the code compares windows as soon as 5 records
exist and the second window is nonempty. -/
theorem report_trend_nonzero_under_ten_records :
    (([(90 : ℚ), 90, 90, 90, 90, 80]).length < 10) ∧
      (get_weaknesses_report []
        ([(90 : ℚ), 90, 90, 90, 90, 80].map some)).trend ≠ 0 := by
  have h1 : trendValue ([(90 : ℚ), 90, 90, 90, 90, 80].map some) = 10 := by
    norm_num [trendValue, List.filterMap]
    simp
  have h2 : round1 10 = 10 := by norm_num [round1]
  refine ⟨by decide, ?_⟩
  show round1 (trendValue ([(90 : ℚ), 90, 90, 90, 90, 80].map some)) ≠ 0
  rw [h1, h2]
  norm_num

theorem filterMap_id_map_some (l : List ℚ) : (l.map some).filterMap id = l := by
  induction l with
  | nil => rfl
  | cons a l ih => simp [ih]

/-- C6 (amended): the reported trend is 0 when fewer than 6 efficiency
records exist; from 6 records on it is the mean of the 5 newest efficiency
values minus the mean of records 5 through 9 (as many of those as exist),
rounded to one decimal place.  (With at least 10 records this coincides with
the claimed `mean(records[0:5]) − mean(records[5:10])`.) -/
theorem report_trend_formula (counts : List (String × Int)) (effs : List ℚ) :
    (get_weaknesses_report counts (effs.map some)).trend =
      if 6 ≤ effs.length then
        round1 ((effs.take 5).sum / (effs.take 5).length -
          ((effs.drop 5).take 5).sum / ((effs.drop 5).take 5).length)
      else 0 := by
  show round1 (trendValue (effs.map some)) = _
  have htake : ((effs.map some).take 5).filterMap id = effs.take 5 := by
    rw [← List.map_take]; exact filterMap_id_map_some _
  have hdrop : (((effs.map some).drop 5).take 5).filterMap id =
      (effs.drop 5).take 5 := by
    rw [← List.map_drop, ← List.map_take]; exact filterMap_id_map_some _
  simp only [trendValue, List.length_map, htake, hdrop]
  by_cases h6 : 6 ≤ effs.length
  · have hr : effs.take 5 ≠ [] := by
      have h5 : (effs.take 5).length = 5 := by rw [List.length_take]; omega
      intro hnil; rw [hnil] at h5; simp at h5
    have ho : (effs.drop 5).take 5 ≠ [] := by
      have h5 : ((effs.drop 5).take 5).length = min 5 (effs.length - 5) := by
        rw [List.length_take, List.length_drop]
      intro hnil; rw [hnil] at h5; simp at h5; omega
    rw [if_pos (by omega), if_pos ⟨hr, ho⟩, if_pos h6]
  · rw [if_neg h6]
    by_cases h5 : 5 ≤ effs.length
    · have hdropnil : effs.drop 5 = [] := List.drop_eq_nil_of_le (by omega)
      rw [if_pos h5, if_neg (fun hco => hco.2 (by rw [hdropnil]; rfl))]
      norm_num [round1]
    · rw [if_neg (by omega)]
      norm_num [round1]

/-! ## C8 -/

/-- Concrete run refuting C8: a category far outside the taxonomy, submitted
with count 3, creates and increments a cumulative counter — the aggregation
step filters nothing. -/
theorem aggregate_unknown_category_incremented :
    weakness_descriptions "future_client_category" = none ∧
      applyWeaknessInc (fun _ => 0) [("future_client_category", 3)]
        "future_client_category" = 3 := by
  constructor
  · rfl
  · decide

theorem applyWeaknessInc_eq (profile : String → Int)
    (submitted : List (String × Int)) (k : String) :
    applyWeaknessInc profile submitted k =
      profile k + ((submitted.filter fun kv => kv.1 = k).map Prod.snd).sum := by
  induction submitted generalizing profile with
  | nil => simp [applyWeaknessInc]
  | cons kv rest ih =>
    have hcons : applyWeaknessInc profile (kv :: rest) =
        applyWeaknessInc
          (fun s => if s = kv.1 then profile s + kv.2 else profile s) rest :=
      rfl
    rw [hcons, ih, List.filter_cons]
    by_cases hk : kv.1 = k
    · have hd : (decide (kv.1 = k)) = true := by simp [hk]
      rw [if_pos hd, List.map_cons, List.sum_cons, if_pos hk.symm]
      ring
    · have hd : ¬ ((decide (kv.1 = k)) = true) := by simp [hk]
      rw [if_neg hd, if_neg (fun h => hk h.symm)]

theorem weaknessDetails_types_known (counts : List (String × Int)) :
    ∀ d ∈ weaknessDetails counts, (weakness_descriptions d.type).isSome := by
  intro d hd
  obtain ⟨kv, hkv, hfd⟩ := List.mem_filterMap.mp hd
  by_cases h0 : 0 < kv.2
  · rw [if_pos h0] at hfd
    cases hdesc : weakness_descriptions kv.1 with
    | none => rw [hdesc] at hfd; exact absurd hfd (by simp)
    | some dsc =>
      rw [hdesc] at hfd
      have := Option.some.inj hfd
      rw [← this]
      simp [hdesc]
  · rw [if_neg h0] at hfd
    exact absurd hfd (by simp)

/-- C8 (amended): aggregation filters nothing — every submitted category,
inside or outside the fixed taxonomy, adds its submitted count to that
category's cumulative counter (creating it at 0 if absent), and categories
absent from the submission are untouched (their filtered sum is 0); unknown
categories are excluded only later, when the weakness-details listing is
rendered. -/
theorem aggregate_increments_every_submitted (profile : String → Int)
    (submitted : List (String × Int)) (k : String) :
    (applyWeaknessInc profile submitted k =
      profile k + ((submitted.filter fun kv => kv.1 = k).map Prod.snd).sum) ∧
    ∀ counts : List (String × Int), ∀ d ∈ weaknessDetails counts,
      (weakness_descriptions d.type).isSome :=
  ⟨applyWeaknessInc_eq profile submitted k,
   fun counts => weaknessDetails_types_known counts⟩

/-- The single weakness detail produced from a count of 1 on
`inefficient_path`. -/
def detailC8 : WeaknessDetail :=
  { type := "inefficient_path", count := 1,
    label := "Inefficient Movement Path",
    tip := "Plan your movement before pressing keys",
    practice := "Look for the shortest path using available motions",
    severity := "low" }

theorem aggregate_increments_every_submitted_witness :
    (applyWeaknessInc (fun _ => 0)
        [("slow_basic_movement", 2), ("new_kind", 4)] "new_kind" =
      (fun _ => (0 : Int)) "new_kind" +
        (([("slow_basic_movement", (2 : Int)), ("new_kind", 4)].filter
          fun kv => kv.1 = "new_kind").map Prod.snd).sum) ∧
    (weakness_descriptions detailC8.type).isSome :=
  ⟨(aggregate_increments_every_submitted (fun _ => 0)
      [("slow_basic_movement", 2), ("new_kind", 4)] "new_kind").1,
   (aggregate_increments_every_submitted (fun _ => 0) [] "x").2
      [("inefficient_path", 1)] detailC8 (by decide)⟩

/-! ## C9 -/

theorem weight_bonus_nonneg (c : Int) : 0 ≤ weight_bonus c := by
  rw [weight_bonus]
  split_ifs <;> norm_num

theorem weight_bonus_mono {c d : Int} (h : c ≤ d) :
    weight_bonus c ≤ weight_bonus d := by
  rw [weight_bonus, weight_bonus]
  split_ifs <;> try norm_num
  all_goals omega

/-- C9 (spec-modelled): each of the 9 motion categories gets a weight that is
never below 1.0 and is monotonically non-decreasing in the cumulative count
of every weakness category (pointwise larger profiles never lower any
weight). -/
theorem adaptive_weight_ge_one_and_monotone (m : String)
    (hm : m ∈ motion_categories) (p1 p2 : String → Int)
    (hmono : ∀ w, p1 w ≤ p2 w) :
    1 ≤ adaptive_weight p1 m ∧ adaptive_weight p1 m ≤ adaptive_weight p2 m := by
  constructor
  · rw [adaptive_weight]
    have hsum : 0 ≤ ((weakness_taxonomy.filter
        fun w => weakness_to_motion w = some m).map
          fun w => weight_bonus (p1 w)).sum := by
      refine List.sum_nonneg ?_
      intro x hx
      obtain ⟨w, -, hw⟩ := List.mem_map.mp hx
      rw [← hw]
      exact weight_bonus_nonneg _
    linarith
  · rw [adaptive_weight, adaptive_weight]
    have hsum := List.sum_le_sum
      (l := weakness_taxonomy.filter fun w => weakness_to_motion w = some m)
      (f := fun w => weight_bonus (p1 w))
      (g := fun w => weight_bonus (p2 w))
      (fun w _ => weight_bonus_mono (hmono w))
    linarith

theorem adaptive_weight_ge_one_and_monotone_witness :
    1 ≤ adaptive_weight (fun _ => 0) "word" ∧
      adaptive_weight (fun _ => 0) "word" ≤
        adaptive_weight (fun _ => 20) "word" :=
  adaptive_weight_ge_one_and_monotone "word" (by decide) (fun _ => 0)
    (fun _ => 20) (fun _ => by norm_num)

end VimEngine
